import Mathlib

/-!
# Verification of the EloArg command-line option registry and parser

Shallow embedding of `src/eloarg.c` (the option registry, the parser
`eloArgParse`, registration `eloArgAdd`, and the query accessors
`eloArgHas` / `eloArgGet` / `eloArgCount`).

The underlying hash table is an external collaborator of the repository
(declared in `hashtable.h`, implemented in a separate project). Modelled
from the spec: the Key/Value Index is an associative structure from string
keys to shared option records, supporting insert, lookup, existence check
and count, where two distinct keys may reference the same stored record.
We model it as an association list from `String` to a numeric id into a
store of option records; two keys mapping to the same id model two hash
table slots holding the same `EloArgOption *` pointer.

C strings are modelled as `String`; `NULL` string pointers as
`Option String` (`none` = `NULL`). The fatal `error(...)`+`exit` paths are
modelled as `Except` error results.
-/

/-- The `ArgValueType` enumeration from `eloarg.h`. -/
inductive ArgValueType
  | ARG_NONE
  | ARG_INFO
  | ARG_OPTIONAL
  | ARG_REQUIRED
deriving Repr, DecidableEq

/-- The `EloArgOption` record from `eloarg.h`.  The fixed-size char arrays
`shortOption`/`longOption` are modelled as `String` with `""` for the
empty string stored when the alias is absent; `value` is a `char *` that
is `NULL` (`none`) until a value is attached. -/
structure EloArgOption where
  shortOption : String
  longOption : String
  description : String
  valueType : ArgValueType
  uniqueStrId : String
  value : Option String
  provided : Bool
  count : Nat
  refCount : Nat
deriving Repr, DecidableEq

/-- The `EloArg` registry state: the hash table (association list from key
to the id of the shared option record), the store of option records
(ids are positions; two keys holding the same id model two hash-table
entries sharing one `EloArgOption *`), and the registration counter
`eloarg.count`. -/
structure EloArgState where
  table : List (String × Nat)
  store : List EloArgOption
  count : Nat
deriving Repr, DecidableEq

/-- The state produced by `eloArgInit`: empty table, no options, count 0. -/
def initState : EloArgState := { table := [], store := [], count := 0 }

/-- Hash table lookup (`hashTable->get`): first binding of the key. -/
def tableGet (st : EloArgState) (k : String) : Option Nat :=
  List.lookup k st.table

/-- Hash table existence check (`hashTable->has`). -/
def tableHas (st : EloArgState) (k : String) : Bool :=
  (tableGet st k).isSome

/-- Number of keys in the hash table (`hashTable->count`): an option
registered under two keys is counted twice, once per key. -/
def tableCount (st : EloArgState) : Nat :=
  st.table.length

/-- Hash table insert (`hashTable->set`): overwrite the binding if the key
exists, else append a new binding (so iteration order is insertion order). -/
def tableSet (t : List (String × Nat)) (k : String) (v : Nat) : List (String × Nat) :=
  if (List.lookup k t).isSome then
    t.map (fun p => if p.1 == k then (k, v) else p)
  else
    t ++ [(k, v)]

/-- Placeholder record used when dereferencing an id that is not in the
store; never reached for states built through the registration API. -/
def defaultOption : EloArgOption :=
  { shortOption := "", longOption := "", description := "",
    valueType := .ARG_NONE, uniqueStrId := "", value := none,
    provided := false, count := 0, refCount := 0 }

/-- Dereference an option id (following the `EloArgOption *` stored in a
hash table slot). -/
def storeGetD (st : EloArgState) (id : Nat) : EloArgOption :=
  (st.store.get? id).getD defaultOption

/-- In-place update of the record at position `id` (a write through the
shared `EloArgOption *`); out-of-range ids leave the store unchanged. -/
def storeModify (f : EloArgOption → EloArgOption) : Nat → List EloArgOption → List EloArgOption
  | _, [] => []
  | 0, o :: rest => f o :: rest
  | n + 1, o :: rest => o :: storeModify f n rest

/-- `option->provided = true; option->count++;` on the shared record. -/
def bump (st : EloArgState) (id : Nat) : EloArgState :=
  { st with store := storeModify (fun o => { o with provided := true, count := o.count + 1 }) id st.store }

/-- `option->value = strdup(v);` on the shared record. -/
def setVal (st : EloArgState) (id : Nat) (v : String) : EloArgState :=
  { st with store := storeModify (fun o => { o with value := some v }) id st.store }

/-- The configuration errors raised by `eloArgAdd` (each is a fatal
`ConfigurationError` message in the C code). -/
inductive ConfigErr
  | missingOption
  | missingDescription (name : String)
  | alreadySetShort (s : String)
  | alreadySetLong (s : String)
  | shortTooLong
  | longTooLong
  | descriptionTooLong
deriving Repr, DecidableEq

/-- `hashTable->has` applied to a possibly-`NULL` key (a `NULL` key is
never present). -/
def hasKeyOpt (st : EloArgState) (k : Option String) : Bool :=
  match k with
  | none => false
  | some s => tableHas st s

/-- `eloArgAdd` from `eloarg.c`: validation in source order (missing
fields, duplicate keys, length bounds), then allocation of one shared
record inserted under each provided key, and `eloarg.count++`. -/
def eloArgAdd (st : EloArgState) (shortOption longOption description : Option String)
    (valueType : ArgValueType) : Except ConfigErr EloArgState :=
  if shortOption = none ∧ longOption = none then
    .error .missingOption
  else if description = none then
    .error (.missingDescription (longOption.getD (shortOption.getD "")))
  else if hasKeyOpt st shortOption then
    .error (.alreadySetShort (shortOption.getD ""))
  else if hasKeyOpt st longOption then
    .error (.alreadySetLong (longOption.getD ""))
  else if shortOption.any (fun s => s.length > 1) then
    .error .shortTooLong
  else if longOption.any (fun s => s.length > 32) then
    .error .longTooLong
  else if (description.getD "").length > 150 then
    .error .descriptionTooLong
  else
    let id := st.store.length
    let o : EloArgOption :=
      { shortOption := shortOption.getD "", longOption := longOption.getD "",
        description := description.getD "", valueType := valueType,
        uniqueStrId := toString st.count, value := none, provided := false,
        count := 0,
        refCount := (if shortOption.isSome then 1 else 0) + (if longOption.isSome then 1 else 0) }
    let table1 := match shortOption with
      | some s => tableSet st.table s id
      | none => st.table
    let table2 := match longOption with
      | some s => tableSet table1 s id
      | none => table1
    .ok { table := table2, store := st.store ++ [o], count := st.count + 1 }

/-- `eloArgHas`: the option reachable by `key` exists and was provided. -/
def eloArgHas (st : EloArgState) (key : String) : Bool :=
  match tableGet st key with
  | some id =>
    match st.store.get? id with
    | some o => o.provided
    | none => false
  | none => false

/-- `eloArgGet`: the option's value if it exists and was provided, else
`NULL` (`none`). -/
def eloArgGet (st : EloArgState) (key : String) : Option String :=
  match tableGet st key with
  | some id =>
    match st.store.get? id with
    | some o => if o.provided then o.value else none
    | none => none
  | none => none

/-- `eloArgCount`: the option's occurrence count if it exists and was
provided, else 0. -/
def eloArgCount (st : EloArgState) (key : String) : Nat :=
  match tableGet st key with
  | some id =>
    match st.store.get? id with
    | some o => if o.provided then o.count else 0
    | none => 0
  | none => 0

/-- The fatal parse errors raised by `eloArgParse` (each aborts the
program in the C code; the payload records the offending name as printed
in the message). -/
inductive ParseErr
  | UnknownOption (name : String)
  | MissingValue (name : String)
  | UnexpectedValue (name : String)
  | MissingRequired (name : String)
deriving Repr, DecidableEq

deriving instance DecidableEq for Except

/-- `argv[i+1][0] != '-'` test: the (possibly empty) next element starts
with a dash.  An empty C string has `'\0'` at position 0, so it does not
start with a dash. -/
def headIsDash (s : String) : Bool :=
  match s.data with
  | [] => false
  | c :: _ => c = '-'

/-- Result of handling one `--`-prefixed element inside the parse loop:
a fatal error, an early successful return (`ARG_INFO`), or continuation
with the updated state, `skipNext = true` when the following `argv`
element was consumed as this option's value (`i++`). -/
inductive StepOut
  | err (e : ParseErr)
  | early (st : EloArgState)
  | cont (st : EloArgState) (skipNext : Bool)
deriving Repr, DecidableEq

/-- Handling of one long-form element in `eloArgParse` (lines 236-288 of
`eloarg.c`): `nv` is the character list after the leading `--`, `next?`
the following `argv` element if any.  With a `=` the element is split at
the first `=` into name and inline value; without one the name may take
the next element as its value. -/
def longStep (st : EloArgState) (nv : List Char) (next? : Option String) : StepOut :=
  if nv.contains '=' then
    match tableGet st (String.mk (nv.takeWhile (fun c => c ≠ '='))) with
    | none => .err (.UnknownOption (String.mk ('-' :: '-' :: nv.takeWhile (fun c => c ≠ '='))))
    | some id =>
      if (storeGetD st id).valueType = .ARG_OPTIONAL ∨
          (storeGetD st id).valueType = .ARG_REQUIRED then
        if String.mk ((nv.dropWhile (fun c => c ≠ '=')).tail) = "" then
          .err (.MissingValue (storeGetD st id).longOption)
        else
          .cont (setVal (bump st id) id (String.mk ((nv.dropWhile (fun c => c ≠ '=')).tail))) false
      else .err (.UnexpectedValue (storeGetD st id).longOption)
  else
    match tableGet st (String.mk nv) with
    | none => .err (.UnknownOption (String.mk ('-' :: '-' :: nv)))
    | some id =>
      if (storeGetD st id).valueType = .ARG_INFO then .early (bump st id)
      else if (storeGetD st id).valueType = .ARG_OPTIONAL ∨
          (storeGetD st id).valueType = .ARG_REQUIRED then
        match next? with
        | some v =>
          if headIsDash v then .err (.MissingValue (storeGetD st id).longOption)
          else .cont (setVal (bump st id) id v) true
        | none => .err (.MissingValue (storeGetD st id).longOption)
      else .cont (bump st id) false

/-- Result of the inner `while(*opt)` loop over the characters of a
short-form element: a fatal error, an early return (`ARG_INFO`), or
continuation of the outer loop with the updated state and the remaining
`argv` suffix (elements consumed as detached values removed). -/
inductive ShortOut
  | err (e : ParseErr)
  | early (st : EloArgState)
  | cont (st : EloArgState) (rest : List String)
deriving Repr, DecidableEq

/-- The inner `while(*opt)` loop of `eloArgParse` (lines 296-330 of
`eloarg.c`).  Faithful to the source, the lookup key is `tmpOpt`, built
once from the FIRST character of the element and never updated inside the
loop, while error messages name the current character `*opt`.  An
attached value (`-p443`) ends the loop (`break`); a detached value
consumes the next `argv` element (`i++`) and the loop continues with the
next character. -/
def shortLoop (key : String) : EloArgState → List Char → List String → ShortOut
  | st, [], rest => .cont st rest
  | st, c :: cs, rest =>
    match tableGet st key with
    | none => .err (.UnknownOption (String.singleton c))
    | some id =>
      if (storeGetD st id).valueType = .ARG_INFO then .early (bump st id)
      else if (storeGetD st id).valueType = .ARG_OPTIONAL ∨
          (storeGetD st id).valueType = .ARG_REQUIRED then
        if cs ≠ [] then .cont (setVal (bump st id) id (String.mk cs)) rest
        else
          match rest with
          | v :: rest2 =>
            if headIsDash v then .err (.MissingValue (String.singleton c))
            else shortLoop key (setVal (bump st id) id v) cs rest2
          | [] => .err (.MissingValue (String.singleton c))
      else shortLoop key (bump st id) cs rest

/-- Outcome of the main `for` loop of `eloArgParse`: normal completion
(falls through to the missing-required validation), early `return`
(`--` terminator or `ARG_INFO`), or a fatal error. -/
inductive ParseOutcome
  | done (st : EloArgState)
  | early (st : EloArgState)
  | err (e : ParseErr)
deriving Repr, DecidableEq

/-- Shape of one `argv` element, mirroring the branch structure of the
loop body of `eloArgParse`: `argv[i][0] == '-' && argv[i][1] == '-'`
(long), a lone `-` (the character loop body never runs), a short element
`-c...`, or a bare word. -/
inductive TokClass
  | ddash (nv : List Char)
  | dashOnly
  | short (c : Char) (cs : List Char)
  | bare
deriving Repr, DecidableEq

/-- Classification of an element's character list, in the test order of
the C loop body. -/
def classify : List Char → TokClass
  | '-' :: '-' :: nv => .ddash nv
  | '-' :: [] => .dashOnly
  | '-' :: c :: cs => .short c cs
  | _ => .bare

/-- The main `for(i = 1; i < argc; i++)` loop of `eloArgParse`, over the
list of remaining elements.  The fuel argument makes the recursion
structural; since every step consumes at least one element, a fuel equal
to the list length (see `runArgs`) never runs out.  Elements that are
neither `--`-prefixed, `-`-prefixed nor `--` are silently skipped. -/
def parseLoopF : Nat → List String → EloArgState → ParseOutcome
  | 0, _, st => .done st
  | _ + 1, [], st => .done st
  | fuel + 1, a :: rest, st =>
    if a = "--" then .early st
    else
      match classify a.data with
      | .ddash nv =>
        match longStep st nv rest.head? with
        | .err e => .err e
        | .early st1 => .early st1
        | .cont st1 true => parseLoopF fuel rest.tail st1
        | .cont st1 false => parseLoopF fuel rest st1
      | .dashOnly => parseLoopF fuel rest st
      | .short c cs =>
        match shortLoop (String.singleton c) st (c :: cs) rest with
        | .err e => .err e
        | .early st1 => .early st1
        | .cont st1 rest1 => parseLoopF fuel rest1 st1
      | .bare => parseLoopF fuel rest st

/-- Predicate of the post-loop validation: a hash table entry whose
option is `ARG_REQUIRED` with a `NULL` value. -/
def isReqMissing (st : EloArgState) (p : String × Nat) : Bool :=
  (storeGetD st p.2).valueType = .ARG_REQUIRED ∧ (storeGetD st p.2).value = none

/-- Name printed by the missing-required diagnostic: the long spelling if
present, else the short spelling. -/
def reqName (st : EloArgState) (p : String × Nat) : String :=
  if (storeGetD st p.2).longOption ≠ "" then (storeGetD st p.2).longOption
  else (storeGetD st p.2).shortOption

/-- The first hash table entry (in table order) holding a required option
without a value, as reported by the post-loop validation. -/
def firstMissingRequired (st : EloArgState) : Option String :=
  (st.table.find? (isReqMissing st)).map (reqName st)

/-- The post-loop missing-required validation of `eloArgParse`
(lines 334-346 of `eloarg.c`). -/
def requiredCheck (st : EloArgState) : Except ParseErr EloArgState :=
  match firstMissingRequired st with
  | some name => .error (.MissingRequired name)
  | none => .ok st

/-- The loop run with exactly enough fuel for its argument list. -/
def runArgs (args : List String) (st : EloArgState) : ParseOutcome :=
  parseLoopF args.length args st

/-- `eloArgParse` from `eloarg.c`: immediate return when `argc == 0` or
no option is registered; otherwise the main loop over `argv[1..]`
followed, only on normal loop completion, by the missing-required
validation.  `args` is the full `argv` including the program name. -/
def eloArgParse (st : EloArgState) (args : List String) : Except ParseErr EloArgState :=
  if args.length = 0 ∨ tableCount st = 0 then .ok st
  else
    match runArgs args.tail st with
    | .done st1 => requiredCheck st1
    | .early st1 => .ok st1
    | .err e => .error e

/-! ## Concrete registries used by the claims -/

/-- Registry with a `REQUIRED` option `port` aliased to short `p`. -/
def stPort : EloArgState :=
  (eloArgAdd initState (some "p") (some "port") (some "Port to listen on")
    .ARG_REQUIRED).toOption.getD initState

/-- Registry with three `NONE`-kind short options `a`, `b`, `c`. -/
def stABC : EloArgState :=
  let s1 := (eloArgAdd initState (some "a") none (some "flag a") .ARG_NONE).toOption.getD initState
  let s2 := (eloArgAdd s1 (some "b") none (some "flag b") .ARG_NONE).toOption.getD s1
  (eloArgAdd s2 (some "c") none (some "flag c") .ARG_NONE).toOption.getD s2

/-- Registry with `NONE`-kind short options `a` and `c` only (`b` is not
registered). -/
def stAC : EloArgState :=
  let s1 := (eloArgAdd initState (some "a") none (some "flag a") .ARG_NONE).toOption.getD initState
  (eloArgAdd s1 (some "c") none (some "flag c") .ARG_NONE).toOption.getD s1

/-- Registry with `REQUIRED` `p`/`port` and `INFO` `h`/`help`. -/
def stHelp : EloArgState :=
  (eloArgAdd stPort (some "h") (some "help") (some "Show help") .ARG_INFO).toOption.getD stPort

/-- The registration-time identity of a record: its two spellings. -/
def optSig (o : EloArgOption) : String × String := (o.shortOption, o.longOption)

/-- Relation between a state and a state obtained from it by parse-time
mutations only: the key index is unchanged and every store position holds
a record with the same spellings. -/
def FrameEq (st st1 : EloArgState) : Prop :=
  st1.table = st.table ∧
  ∀ i, (st1.store.get? i).map optSig = (st.store.get? i).map optSig


/-- Every record in the store is reachable in the key index under each of
its non-empty spellings, both keys resolving to the record's own id — the
"one logical entity behind two keys" property. -/
def RegInv (st : EloArgState) : Prop :=
  ∀ i o, st.store.get? i = some o →
    (o.shortOption ≠ "" → tableGet st o.shortOption = some i) ∧
    (o.longOption ≠ "" → tableGet st o.longOption = some i)


/-- States reachable through the public API: the initial state, and any
state obtained by a successful registration or a successful parse. -/
inductive Reachable : EloArgState → Prop
  | init : Reachable initState
  | add (st st1 : EloArgState) (so lo d : Option String) (k : ArgValueType) :
      Reachable st → eloArgAdd st so lo d k = .ok st1 → Reachable st1
  | parse (st st1 : EloArgState) (args : List String) :
      Reachable st → eloArgParse st args = .ok st1 → Reachable st1


/-- The `port` registry after parsing `-p8080`: the shared record holds
value `"8080"`, provided, count 1, reachable through both keys. -/
def stPortParsed : EloArgState :=
  { table := [("p", 0), ("port", 0)],
    store := [⟨"p", "port", "Port to listen on", .ARG_REQUIRED, "0", some "8080", true, 1, 2⟩],
    count := 1 }


/-- Registry with a single option `f`/`file` of the given value kind,
built through the registration API. -/
def stFileOf (k : ArgValueType) : EloArgState :=
  (eloArgAdd initState (some "f") (some "file") (some "Path to the input file")
    k).toOption.getD initState

/-- The `f`/`file` record of the given value kind, with a given value,
count and provided flag. -/
def fileOptK (k : ArgValueType) (v : Option String) (c : Nat) (p : Bool) : EloArgOption :=
  ⟨"f", "file", "Path to the input file", k, "0", v, p, c, 2⟩

/-- The `f`/`file` registry of the given value kind whose shared record
carries the given value, count and provided flag. -/
def stFileK (k : ArgValueType) (v : Option String) (c : Nat) (p : Bool) : EloArgState :=
  { table := [("f", 0), ("file", 0)], store := [fileOptK k v c p], count := 1 }

/-- One occurrence of the `file` option in a parsed argument vector, in
any of the four concrete syntaxes the parser accepts. -/
inductive OccForm
  | longEq (v : String)
  | longSp (v : String)
  | shortAtt (v : String)
  | shortSp (v : String)
deriving Repr, DecidableEq

/-- The `argv` elements of one occurrence: `--file=v`, `--file v`,
`-fv`, or `-f v`. -/
def renderOcc : OccForm → List String
  | .longEq v => [String.mk ('-' :: '-' :: 'f' :: 'i' :: 'l' :: 'e' :: '=' :: v.data)]
  | .longSp v => ["--file", v]
  | .shortAtt v => [String.mk ('-' :: 'f' :: v.data)]
  | .shortSp v => ["-f", v]

/-- The value carried by an occurrence. -/
def occVal : OccForm → String
  | .longEq v => v
  | .longSp v => v
  | .shortAtt v => v
  | .shortSp v => v

/-- Syntactic side conditions of each form: inline and attached values
must be non-empty (an empty one raises `MissingValue` or changes the
token's shape), detached values must not begin with a dash (the parser
would refuse to consume them). -/
def occOk : OccForm → Bool
  | .longEq v => v ≠ ""
  | .longSp v => !(headIsDash v)
  | .shortAtt v => v ≠ ""
  | .shortSp v => !(headIsDash v)

/-- Concatenation of the renderings of a list of occurrences. -/
def renderAll : List OccForm → List String
  | [] => []
  | b :: bs => renderOcc b ++ renderAll bs

/-- The value of the last occurrence, with a default for the empty list. -/
def lastValD : List OccForm → Option String → Option String
  | [], acc => acc
  | b :: bs, _ => lastValD bs (some (occVal b))


/-! ## Claims C1, C2, C3, C5, C10 -/

/-- C1: the spec says a combined short element `-abc` looks up EACH
character as its own short key, marking three `NONE`-kind options `a`,
`b`, `c` provided once each, and that an unregistered character fails
with `UnknownOption`.  The code instead builds the lookup key `tmpOpt`
from the first character only and never updates it inside the loop, so
`-abc` bumps `a` three times, leaves `b` and `c` untouched, and raises no
`UnknownOption` for an unregistered `b`.  This theorem evaluates the
embedded code at the failing inputs. -/
theorem short_combined_lookup_code_bug :
    (eloArgParse stABC ["prog", "-abc"]).map
        (fun st => (eloArgCount st "a", eloArgHas st "a", eloArgCount st "b",
                    eloArgHas st "b", eloArgCount st "c", eloArgHas st "c"))
      = .ok (3, true, 0, false, 0, false)
  ∧ (eloArgParse stAC ["prog", "-abc"]).map (fun st => (eloArgCount st "a", eloArgHas st "b"))
      = .ok (3, false) := by
  constructor
  · decide
  · decide

/-- C2: an element exactly equal to `--` stops all parsing immediately
with success: the loop returns `early` without touching the state or
examining later elements, and at top level `parse` returns the state
unchanged with no missing-required validation, whatever the registry
(including one holding an unset `REQUIRED` option). -/
theorem double_dash_terminates_parse :
    (∀ fuel st rest, parseLoopF (fuel + 1) ("--" :: rest) st = .early st) ∧
    (∀ p st rest, eloArgParse st (p :: "--" :: rest) = .ok st) := by
  constructor
  · intro fuel st rest
    rfl
  · intro p st rest
    unfold eloArgParse
    split
    · rfl
    · rfl

/-- C3: parsing an empty user-argument sequence (an `argv` holding only
the program name) against a registry whose required-option scan reports a
missing `REQUIRED` option fails with `MissingRequired`, while an argument
count of zero returns before the validation, leaving any state accepted. -/
theorem empty_args_missing_required :
    (∀ st p name, firstMissingRequired st = some name →
        eloArgParse st [p] = .error (.MissingRequired name)) ∧
    (∀ st, eloArgParse st [] = .ok st) := by
  constructor
  · intro st p name h
    have htab : st.table ≠ [] := by
      intro he
      rw [firstMissingRequired, he] at h
      simp at h
    unfold eloArgParse
    rw [if_neg]
    · show requiredCheck st = _
      rw [requiredCheck, h]
    · rw [not_or]
      refine ⟨by simp, ?_⟩
      simpa [tableCount, List.length_eq_zero] using htab
  · intro st
    rfl

/-- Witness for C3 at the concrete `port` registry. -/
theorem empty_args_missing_required_witness :
    firstMissingRequired stPort = some "port" ∧
    eloArgParse stPort ["prog"] = .error (.MissingRequired "port") :=
  ⟨by decide, empty_args_missing_required.1 stPort "prog" "port" (by decide)⟩

/-- C5: against the `p`/`port` `REQUIRED` registry, the detached long
form, the inline long form and the attached short form are equivalent:
all three parses yield the same result, and on it `get "port"` is
`"8080"`, the option is provided, and its count is 1. -/
theorem port_value_forms_equivalent :
    eloArgParse stPort ["prog", "--port", "8080"] = eloArgParse stPort ["prog", "--port=8080"]
  ∧ eloArgParse stPort ["prog", "--port=8080"] = eloArgParse stPort ["prog", "-p8080"]
  ∧ (eloArgParse stPort ["prog", "--port", "8080"]).map
      (fun st => (eloArgGet st "port", eloArgHas st "port", eloArgCount st "port"))
      = .ok (some "8080", true, 1) := by
  refine ⟨by decide, by decide, by decide⟩

/-- C10: an element consisting of a single `-` is silently skipped: the
long branch does not fire, the character loop body never runs (the first
character is the terminator), no error is raised, no option record is
touched, and the loop continues with the next element. -/
theorem lone_dash_skipped :
    ∀ fuel st rest, parseLoopF (fuel + 1) ("-" :: rest) st = parseLoopF fuel rest st := by
  intro fuel st rest
  rfl

/-! ## Helper lemmas -/

theorem takeWhile_append_sep {p : Char → Bool} :
    ∀ (l1 : List Char) (x : Char) (l2 : List Char), (∀ a ∈ l1, p a = true) → p x = false →
      (l1 ++ x :: l2).takeWhile p = l1 := by
  intro l1
  induction l1 with
  | nil =>
    intro x l2 _ hx
    simp [List.takeWhile_cons, hx]
  | cons a t ih =>
    intro x l2 h hx
    have ha : p a = true := h a (by simp)
    simp only [List.cons_append, List.takeWhile_cons, ha, if_true]
    rw [ih x l2 (fun b hb => h b (by simp [hb])) hx]

theorem dropWhile_append_sep {p : Char → Bool} :
    ∀ (l1 : List Char) (x : Char) (l2 : List Char), (∀ a ∈ l1, p a = true) → p x = false →
      (l1 ++ x :: l2).dropWhile p = x :: l2 := by
  intro l1
  induction l1 with
  | nil =>
    intro x l2 _ hx
    simp [List.dropWhile_cons, hx]
  | cons a t ih =>
    intro x l2 h hx
    have ha : p a = true := h a (by simp)
    simp only [List.cons_append, List.dropWhile_cons, ha, if_true]
    exact ih x l2 (fun b hb => h b (by simp [hb])) hx

theorem contains_append_sep (l1 : List Char) (x : Char) (l2 : List Char) :
    (l1 ++ x :: l2).contains x = true :=
  List.elem_iff.mpr (by simp)

theorem stringMk_eq_empty_iff (l : List Char) : String.mk l = "" ↔ l = [] := by
  constructor
  · intro h
    have : (String.mk l).data = ("" : String).data := by rw [h]
    simpa using this
  · intro h
    rw [h]

theorem get?_storeModify_self {f : EloArgOption → EloArgOption} :
    ∀ (l : List EloArgOption) (id : Nat) (o : EloArgOption), l.get? id = some o →
      (storeModify f id l).get? id = some (f o) := by
  intro l
  induction l with
  | nil => intro id o h; simp at h
  | cons a t ih =>
    intro id o h
    cases id with
    | zero =>
      simp at h
      simp [storeModify, h]
    | succ n =>
      simp at h
      simpa [storeModify] using ih n o (by simpa using h)

theorem get?_storeModify_ne {f : EloArgOption → EloArgOption} :
    ∀ (l : List EloArgOption) (id m : Nat), m ≠ id →
      (storeModify f id l).get? m = l.get? m := by
  intro l
  induction l with
  | nil => intro id m _; simp [storeModify]
  | cons a t ih =>
    intro id m h
    cases id with
    | zero =>
      cases m with
      | zero => exact absurd rfl h
      | succ k => simp [storeModify]
    | succ n =>
      cases m with
      | zero => simp [storeModify]
      | succ k =>
        simp only [storeModify, List.get?_cons_succ]
        exact ih n k (fun he => h (by rw [he]))

theorem length_storeModify {f : EloArgOption → EloArgOption} :
    ∀ (id : Nat) (l : List EloArgOption), (storeModify f id l).length = l.length := by
  intro id l
  induction l generalizing id with
  | nil => simp [storeModify]
  | cons a t ih =>
    cases id with
    | zero => simp [storeModify]
    | succ n => simp [storeModify, ih n]

theorem stringMk_dashes_ne_ddash {nv : List Char} (h : nv ≠ []) :
    String.mk ('-' :: '-' :: nv) ≠ "--" := by
  intro he
  have : ('-' :: '-' :: nv) = ['-', '-'] := by
    have := congrArg String.data he
    simpa using this
  simp at this
  exact h this

theorem stringMk_dash_c_ne_ddash {c : Char} {cs : List Char} (hc : c ≠ '-') :
    String.mk ('-' :: c :: cs) ≠ "--" := by
  intro he
  have : ('-' :: c :: cs) = ['-', '-'] := by
    have := congrArg String.data he
    simpa using this
  exact hc (by simp at this; exact this.1)

/-- A short element's character list classifies as `short` when the
character after the dash is not itself a dash. -/
theorem classify_short {c : Char} {cs : List Char} (hc : c ≠ '-') :
    classify ('-' :: c :: cs) = .short c cs := by
  rw [classify.eq_def]
  split
  · rename_i nv hmatch
    simp at hmatch
    exact absurd hmatch.1 hc
  · rename_i hmatch
    simp at hmatch
  · rename_i c1 cs1 hmatch
    simp at hmatch
    rw [hmatch.1, hmatch.2]
  · rename_i h1 h2 h3
    exact (h3 c cs rfl).elim

/-- Unfolding of one loop step at a long-form element (the element's
character list starts with two dashes and differs from `--`). -/
theorem parseLoopF_cons_long (fuel : Nat) (st : EloArgState) (rest : List String)
    (nv : List Char) (hne : nv ≠ []) :
    parseLoopF (fuel + 1) (String.mk ('-' :: '-' :: nv) :: rest) st =
      match longStep st nv rest.head? with
      | .err e => .err e
      | .early st1 => .early st1
      | .cont st1 true => parseLoopF fuel rest.tail st1
      | .cont st1 false => parseLoopF fuel rest st1 := by
  rw [parseLoopF, if_neg (stringMk_dashes_ne_ddash hne)]
  rfl

/-- Unfolding of one loop step at a short-form element whose first
character after the dash is not itself a dash. -/
theorem parseLoopF_cons_short (fuel : Nat) (st : EloArgState) (rest : List String)
    (c : Char) (cs : List Char) (hc : c ≠ '-') :
    parseLoopF (fuel + 1) (String.mk ('-' :: c :: cs) :: rest) st =
      match shortLoop (String.singleton c) st (c :: cs) rest with
      | .err e => .err e
      | .early st1 => .early st1
      | .cont st1 rest1 => parseLoopF fuel rest1 st1 := by
  rw [parseLoopF, if_neg (stringMk_dash_c_ne_ddash hc), classify_short hc]

/-! ## Claim C7: `--name=value` handling -/

/-- C7: for a long element `--name=inlineValue` resolving to a registered
option: with kind `OPTIONAL`/`REQUIRED` an empty inline value fails with
`MissingValue` and a non-empty one stores the value, marks the option
provided and increments its count before the loop continues; with kind
`NONE`/`INFO` parsing fails with `UnexpectedValue`. -/
theorem long_inline_value_handling :
    ∀ (fuel : Nat) (st : EloArgState) (rest : List String) (nm vc : List Char)
      (id : Nat) (o : EloArgOption),
      (∀ a ∈ nm, a ≠ '=') →
      tableGet st (String.mk nm) = some id →
      st.store.get? id = some o →
      ( ((o.valueType = .ARG_OPTIONAL ∨ o.valueType = .ARG_REQUIRED) → vc = [] →
          parseLoopF (fuel + 1) (String.mk ('-' :: '-' :: (nm ++ '=' :: vc)) :: rest) st
            = .err (.MissingValue o.longOption))
      ∧ ((o.valueType = .ARG_OPTIONAL ∨ o.valueType = .ARG_REQUIRED) → vc ≠ [] →
          parseLoopF (fuel + 1) (String.mk ('-' :: '-' :: (nm ++ '=' :: vc)) :: rest) st
            = parseLoopF fuel rest (setVal (bump st id) id (String.mk vc))
          ∧ (setVal (bump st id) id (String.mk vc)).store.get? id
            = some { o with value := some (String.mk vc), provided := true,
                            count := o.count + 1 })
      ∧ ((o.valueType = .ARG_NONE ∨ o.valueType = .ARG_INFO) →
          parseLoopF (fuel + 1) (String.mk ('-' :: '-' :: (nm ++ '=' :: vc)) :: rest) st
            = .err (.UnexpectedValue o.longOption)) ) := by
  intro fuel st rest nm vc id o hnm hlook hstore
  have hsep : nm ++ '=' :: vc ≠ [] := by simp
  have hmem : ∀ a ∈ nm, (fun c => decide (c ≠ '=')) a = true := by
    intro a ha
    simp [hnm a ha]
  have htake : (nm ++ '=' :: vc).takeWhile (fun c => decide (c ≠ '=')) = nm :=
    takeWhile_append_sep nm '=' vc hmem (by simp)
  have hdrop : (nm ++ '=' :: vc).dropWhile (fun c => decide (c ≠ '=')) = '=' :: vc :=
    dropWhile_append_sep nm '=' vc hmem (by simp)
  have hcontains := contains_append_sep nm '=' vc
  have hstep : longStep st (nm ++ '=' :: vc) rest.head? =
      (if o.valueType = .ARG_OPTIONAL ∨ o.valueType = .ARG_REQUIRED then
        if String.mk vc = "" then .err (.MissingValue o.longOption)
        else .cont (setVal (bump st id) id (String.mk vc)) false
      else .err (.UnexpectedValue o.longOption)) := by
    rw [longStep, if_pos hcontains]
    rw [htake, hdrop]
    simp only [hlook, List.tail_cons, storeGetD, hstore, Option.getD_some]
  have hbody : parseLoopF (fuel + 1) (String.mk ('-' :: '-' :: (nm ++ '=' :: vc)) :: rest) st =
      (if o.valueType = .ARG_OPTIONAL ∨ o.valueType = .ARG_REQUIRED then
        if String.mk vc = "" then .err (.MissingValue o.longOption)
        else parseLoopF fuel rest (setVal (bump st id) id (String.mk vc))
      else .err (.UnexpectedValue o.longOption)) := by
    rw [parseLoopF_cons_long fuel st rest _ hsep, hstep]
    by_cases hk : o.valueType = .ARG_OPTIONAL ∨ o.valueType = .ARG_REQUIRED
    · rw [if_pos hk, if_pos hk]
      by_cases hv : String.mk vc = ""
      · rw [if_pos hv, if_pos hv]
      · rw [if_neg hv, if_neg hv]
    · rw [if_neg hk, if_neg hk]
  refine ⟨?_, ?_, ?_⟩
  · intro hk hvc
    rw [hbody, if_pos hk, if_pos (by rw [hvc])]
  · intro hk hvc
    refine ⟨?_, ?_⟩
    · rw [hbody, if_pos hk, if_neg (fun he => hvc ((stringMk_eq_empty_iff vc).mp he))]
    · show (storeModify _ id (storeModify _ id st.store)).get? id = _
      have h1 := get?_storeModify_self (f := fun o => { o with provided := true, count := o.count + 1 })
        st.store id o hstore
      have h2 := get?_storeModify_self (f := fun o => { o with value := some (String.mk vc) })
        _ id _ h1
      exact h2
  · intro hk
    rw [hbody, if_neg ?_]
    rcases hk with h | h <;> rw [h] <;> simp

/-- Witness for C7 at the `port` registry and element `--port=8080`. -/
theorem long_inline_value_handling_witness :
    tableGet stPort (String.mk ['p', 'o', 'r', 't']) = some 0
  ∧ stPort.store.get? 0 = some ⟨"p", "port", "Port to listen on", .ARG_REQUIRED, "0",
      none, false, 0, 2⟩
  ∧ parseLoopF 1 [String.mk ('-' :: '-' :: (['p', 'o', 'r', 't'] ++ '=' :: ['8', '0', '8', '0']))] stPort
      = parseLoopF 0 [] (setVal (bump stPort 0) 0 (String.mk ['8', '0', '8', '0'])) :=
  ⟨by decide, by decide,
   ((long_inline_value_handling 0 stPort [] ['p', 'o', 'r', 't'] ['8', '0', '8', '0'] 0
      ⟨"p", "port", "Port to listen on", .ARG_REQUIRED, "0", none, false, 0, 2⟩
      (by decide) (by decide) (by decide)).2.1 (Or.inr rfl) (by decide)).1⟩

/-! ## Claim C8: duplicate registration -/

/-- C8: registering an option whose short key is already a key of the
registry fails with the short-key `ConfigurationError`, and likewise for
the long key; the error return leaves the registry as it was, so no
second option is created under the key. -/
theorem duplicate_registration_rejected :
    (∀ (st : EloArgState) (s : String) (l : Option String) (d : String) (k : ArgValueType),
        tableHas st s = true →
        eloArgAdd st (some s) l (some d) k = .error (.alreadySetShort s)) ∧
    (∀ (st : EloArgState) (so : Option String) (l d : String) (k : ArgValueType),
        hasKeyOpt st so = false → tableHas st l = true →
        eloArgAdd st so (some l) (some d) k = .error (.alreadySetLong l)) := by
  constructor
  · intro st s l d k h
    simp [eloArgAdd, hasKeyOpt, h]
  · intro st so l d k h1 h2
    simp [eloArgAdd, hasKeyOpt, h1, h2]
    cases so with
    | none => simp
    | some s =>
      simp [hasKeyOpt] at h1
      simp [h1]

/-- Witness for C8: re-registering short `p` and long `port` on the
`port` registry. -/
theorem duplicate_registration_rejected_witness :
    (tableHas stPort "p" = true
      ∧ eloArgAdd stPort (some "p") (some "other") (some "x") .ARG_NONE
          = .error (.alreadySetShort "p"))
  ∧ (hasKeyOpt stPort (some "z") = false ∧ tableHas stPort "port" = true
      ∧ eloArgAdd stPort (some "z") (some "port") (some "x") .ARG_NONE
          = .error (.alreadySetLong "port")) :=
  ⟨⟨by decide, duplicate_registration_rejected.1 stPort "p" (some "other") "x" .ARG_NONE (by decide)⟩,
   ⟨by decide, by decide,
    duplicate_registration_rejected.2 stPort (some "z") "port" "x" .ARG_NONE (by decide) (by decide)⟩⟩

/-! ## Claim C4: `ARG_INFO` short-circuit -/

/-- C4: when the loop resolves a registered `INFO`-kind option — through
a long element without `=` or through a short-form character — it marks
the option provided, increments its count, and returns early with
success; at top level `parse` returns `ok` without running the
missing-required validation, whatever the other registered options. -/
theorem info_option_short_circuits :
    ∀ (fuel : Nat) (st : EloArgState) (rest : List String) (nm : List Char) (id : Nat)
      (o : EloArgOption) (p : String)
      (st2 : EloArgState) (c : Char) (cs : List Char) (rest2 : List String)
      (id2 : Nat) (o2 : EloArgOption),
      nm ≠ [] → nm.contains '=' = false →
      tableGet st (String.mk nm) = some id →
      st.store.get? id = some o → o.valueType = .ARG_INFO →
      c ≠ '-' →
      tableGet st2 (String.singleton c) = some id2 →
      st2.store.get? id2 = some o2 → o2.valueType = .ARG_INFO →
      ( parseLoopF (fuel + 1) (String.mk ('-' :: '-' :: nm) :: rest) st = .early (bump st id)
      ∧ eloArgParse st (p :: String.mk ('-' :: '-' :: nm) :: rest) = .ok (bump st id)
      ∧ (bump st id).store.get? id = some { o with provided := true, count := o.count + 1 }
      ∧ shortLoop (String.singleton c) st2 (c :: cs) rest2 = .early (bump st2 id2)
      ∧ parseLoopF (fuel + 1) (String.mk ('-' :: c :: cs) :: rest2) st2 = .early (bump st2 id2)
      ∧ eloArgParse st2 (p :: String.mk ('-' :: c :: cs) :: rest2) = .ok (bump st2 id2) ) := by
  intro fuel st rest nm id o p st2 c cs rest2 id2 o2
  intro hne hcontains hlook hstore hinfo hc hlook2 hstore2 hinfo2
  have hnotmem : ('=' ∈ nm) → False := fun hmem => by
    have h2 : nm.contains '=' = true := List.elem_iff.mpr hmem
    rw [h2] at hcontains
    exact absurd hcontains (by simp)
  have hstep : ∀ next?, longStep st nm next? = .early (bump st id) := by
    intro next?
    rw [longStep, if_neg (by simpa using hnotmem)]
    simp only [hlook, storeGetD, hstore, Option.getD_some, hinfo]
    simp
  have hlong : ∀ (f : Nat) (r : List String),
      parseLoopF (f + 1) (String.mk ('-' :: '-' :: nm) :: r) st = .early (bump st id) := by
    intro f r
    rw [parseLoopF_cons_long f st r nm hne, hstep]
  have htc : tableCount st ≠ 0 := by
    intro h0
    have hemp : st.table = [] := List.length_eq_zero.mp h0
    rw [tableGet, hemp] at hlook
    simp [List.lookup] at hlook
  have hshort : shortLoop (String.singleton c) st2 (c :: cs) rest2 = .early (bump st2 id2) := by
    rw [shortLoop]
    simp only [hlook2, storeGetD, hstore2, Option.getD_some, hinfo2]
    simp
  have hshortTok : ∀ (f : Nat),
      parseLoopF (f + 1) (String.mk ('-' :: c :: cs) :: rest2) st2 = .early (bump st2 id2) := by
    intro f
    rw [parseLoopF_cons_short f st2 rest2 c cs hc, hshort]
  have htc2 : tableCount st2 ≠ 0 := by
    intro h0
    have hemp : st2.table = [] := List.length_eq_zero.mp h0
    rw [tableGet, hemp] at hlook2
    simp [List.lookup] at hlook2
  refine ⟨hlong fuel rest, ?_, ?_, hshort, hshortTok fuel, ?_⟩
  · unfold eloArgParse
    rw [if_neg (by simp [htc])]
    have h1 : runArgs (String.mk ('-' :: '-' :: nm) :: rest) st = .early (bump st id) :=
      hlong rest.length rest
    simp only [List.tail_cons, h1]
  · exact get?_storeModify_self st.store id o hstore
  · unfold eloArgParse
    rw [if_neg (by simp [htc2])]
    have h1 : runArgs (String.mk ('-' :: c :: cs) :: rest2) st2 = .early (bump st2 id2) :=
      hshortTok rest2.length
    simp only [List.tail_cons, h1]

/-- Witness for C4 at the `port`+`help` registry, with `--help` and `-h`. -/
theorem info_option_short_circuits_witness :
    tableGet stHelp (String.mk ['h', 'e', 'l', 'p']) = some 1
  ∧ stHelp.store.get? 1 = some ⟨"h", "help", "Show help", .ARG_INFO, "1", none, false, 0, 2⟩
  ∧ eloArgParse stHelp ["prog", String.mk ['-', '-', 'h', 'e', 'l', 'p']] = .ok (bump stHelp 1)
  ∧ eloArgParse stHelp ["prog", String.mk ['-', 'h']] = .ok (bump stHelp 1) :=
  ⟨by decide, by decide,
   (info_option_short_circuits 0 stHelp [] ['h', 'e', 'l', 'p'] 1
      ⟨"h", "help", "Show help", .ARG_INFO, "1", none, false, 0, 2⟩ "prog" stHelp 'h' [] [] 1
      ⟨"h", "help", "Show help", .ARG_INFO, "1", none, false, 0, 2⟩
      (by decide) (by decide) (by decide) (by decide) rfl (by decide) (by decide) (by decide)
      rfl).2.1,
   (info_option_short_circuits 0 stHelp [] ['h', 'e', 'l', 'p'] 1
      ⟨"h", "help", "Show help", .ARG_INFO, "1", none, false, 0, 2⟩ "prog" stHelp 'h' [] [] 1
      ⟨"h", "help", "Show help", .ARG_INFO, "1", none, false, 0, 2⟩
      (by decide) (by decide) (by decide) (by decide) rfl (by decide) (by decide) (by decide)
      rfl).2.2.2.2.2⟩

/-! ## Lookup lemmas for the key index -/

theorem lookup_append_of_some :
    ∀ (t l2 : List (String × Nat)) (k : String) (x : Nat),
      List.lookup k t = some x → List.lookup k (t ++ l2) = some x := by
  intro t
  induction t with
  | nil =>
    intro l2 k x h
    simp [List.lookup] at h
  | cons a tl ih =>
    intro l2 k x h
    obtain ⟨k1, v1⟩ := a
    by_cases hk : k = k1
    · simp [List.lookup, hk] at h ⊢
      exact h
    · simp only [List.cons_append, List.lookup, beq_false_of_ne hk] at h ⊢
      exact ih l2 k x h

theorem lookup_append_of_none :
    ∀ (t l2 : List (String × Nat)) (k : String),
      List.lookup k t = none → List.lookup k (t ++ l2) = List.lookup k l2 := by
  intro t
  induction t with
  | nil =>
    intro l2 k _
    simp
  | cons a tl ih =>
    intro l2 k h
    obtain ⟨k1, v1⟩ := a
    by_cases hk : k = k1
    · simp [List.lookup, hk] at h
    · simp only [List.cons_append, List.lookup, beq_false_of_ne hk] at h ⊢
      exact ih l2 k h

theorem lookup_mapReplace_self :
    ∀ (t : List (String × Nat)) (s : String) (v : Nat),
      (List.lookup s t).isSome = true →
      List.lookup s (t.map (fun p => if p.1 == s then (s, v) else p)) = some v := by
  intro t
  induction t with
  | nil =>
    intro s v h
    simp [List.lookup] at h
  | cons a tl ih =>
    intro s v h
    obtain ⟨k1, v1⟩ := a
    rw [List.map_cons]
    by_cases hk : k1 = s
    · rw [if_pos (by simp [hk] : ((k1, v1).1 == s) = true)]
      simp [List.lookup]
    · rw [if_neg (by simp [hk] : ¬ ((k1, v1).1 == s) = true)]
      simp only [List.lookup, beq_false_of_ne (Ne.symm hk)] at h ⊢
      exact ih s v h

theorem lookup_mapReplace_ne :
    ∀ (t : List (String × Nat)) (k s : String) (v : Nat), k ≠ s →
      List.lookup k (t.map (fun p => if p.1 == s then (s, v) else p)) = List.lookup k t := by
  intro t
  induction t with
  | nil =>
    intro k s v _
    simp
  | cons a tl ih =>
    intro k s v h
    obtain ⟨k1, v1⟩ := a
    rw [List.map_cons]
    by_cases hk : k1 = s
    · rw [if_pos (by simp [hk] : ((k1, v1).1 == s) = true)]
      have hkk1 : k ≠ k1 := fun he => h (he.trans hk)
      simp only [List.lookup, beq_false_of_ne h, beq_false_of_ne hkk1]
      exact ih k s v h
    · rw [if_neg (by simp [hk] : ¬ ((k1, v1).1 == s) = true)]
      by_cases hkk1 : k = k1
      · simp [List.lookup, hkk1]
      · simp only [List.lookup, beq_false_of_ne hkk1]
        exact ih k s v h

theorem lookup_tableSet_same (t : List (String × Nat)) (s : String) (v : Nat) :
    List.lookup s (tableSet t s v) = some v := by
  rw [tableSet]
  split
  · exact lookup_mapReplace_self t s v (by assumption)
  · rename_i h
    have hn : List.lookup s t = none := by
      cases hlk : List.lookup s t with
      | some x => rw [hlk] at h; simp at h
      | none => rfl
    rw [lookup_append_of_none t [(s, v)] s hn]
    simp [List.lookup]

theorem lookup_tableSet_ne (t : List (String × Nat)) (k s : String) (v : Nat) (h : k ≠ s) :
    List.lookup k (tableSet t s v) = List.lookup k t := by
  rw [tableSet]
  split
  · exact lookup_mapReplace_ne t k s v h
  · cases hlk : List.lookup k t with
    | some x => exact lookup_append_of_some t [(s, v)] k x hlk
    | none =>
      rw [lookup_append_of_none t [(s, v)] k hlk]
      simp [List.lookup, beq_false_of_ne h]

/-! ## Frame preservation: parsing never touches keys or spellings -/

theorem frameEq_refl (st : EloArgState) : FrameEq st st := ⟨rfl, fun _ => rfl⟩

theorem frameEq_trans {a b c : EloArgState} (h1 : FrameEq a b) (h2 : FrameEq b c) :
    FrameEq a c :=
  ⟨h2.1.trans h1.1, fun i => (h2.2 i).trans (h1.2 i)⟩

theorem get?_storeModify_map {f : EloArgOption → EloArgOption}
    (hf : ∀ o, optSig (f o) = optSig o) :
    ∀ (l : List EloArgOption) (id i : Nat),
      ((storeModify f id l).get? i).map optSig = (l.get? i).map optSig := by
  intro l id i
  by_cases hii : i = id
  · subst hii
    cases hg : l.get? i with
    | some o =>
      rw [get?_storeModify_self l i o hg]
      simp [hf o]
    | none =>
      have hlen : l.length ≤ i := List.get?_eq_none.mp hg
      have hnone : (storeModify f i l).get? i = none :=
        List.get?_eq_none.mpr (by rw [length_storeModify]; exact hlen)
      rw [hnone]
  · rw [get?_storeModify_ne l id i hii]

theorem frameEq_bump (st : EloArgState) (id : Nat) : FrameEq st (bump st id) :=
  ⟨rfl, fun i =>
    get?_storeModify_map (f := fun o => { o with provided := true, count := o.count + 1 })
      (fun _ => rfl) st.store id i⟩

theorem frameEq_setVal (st : EloArgState) (id : Nat) (v : String) :
    FrameEq st (setVal st id v) :=
  ⟨rfl, fun i =>
    get?_storeModify_map (f := fun o => { o with value := some v })
      (fun _ => rfl) st.store id i⟩

theorem longStep_frame_early (st : EloArgState) (nv : List Char) (next? : Option String)
    (st1 : EloArgState) (h : longStep st nv next? = .early st1) : FrameEq st st1 := by
  rw [longStep] at h
  split at h
  · split at h
    · simp at h
    · split at h
      · split at h
        · simp at h
        · simp at h
      · simp at h
  · split at h
    · simp at h
    · split at h
      · simp only [StepOut.early.injEq] at h
        subst h
        exact frameEq_bump st _
      · split at h
        · split at h
          · split at h
            · simp at h
            · simp at h
          · simp at h
        · simp at h

theorem longStep_frame_cont (st : EloArgState) (nv : List Char) (next? : Option String)
    (st1 : EloArgState) (b : Bool) (h : longStep st nv next? = .cont st1 b) :
    FrameEq st st1 := by
  rw [longStep] at h
  split at h
  · split at h
    · simp at h
    · rename_i id _
      split at h
      · split at h
        · simp at h
        · simp only [StepOut.cont.injEq] at h
          rw [← h.1]
          exact frameEq_trans (frameEq_bump st id) (frameEq_setVal (bump st id) id _)
      · simp at h
  · split at h
    · simp at h
    · rename_i id _
      split at h
      · simp at h
      · split at h
        · split at h
          · split at h
            · simp at h
            · simp only [StepOut.cont.injEq] at h
              rw [← h.1]
              exact frameEq_trans (frameEq_bump st id) (frameEq_setVal (bump st id) id _)
          · simp at h
        · simp only [StepOut.cont.injEq] at h
          rw [← h.1]
          exact frameEq_bump st id

theorem shortLoop_frame_early (key : String) :
    ∀ (chars : List Char) (st : EloArgState) (rest : List String) (st1 : EloArgState),
      shortLoop key st chars rest = .early st1 → FrameEq st st1 := by
  intro chars
  induction chars with
  | nil =>
    intro st rest st1 h
    rw [shortLoop] at h
    simp at h
  | cons c cs ih =>
    intro st rest st1 h
    rw [shortLoop] at h
    split at h
    · simp at h
    · rename_i id _
      split at h
      · simp only [ShortOut.early.injEq] at h
        subst h
        exact frameEq_bump st id
      · split at h
        · split at h
          · simp at h
          · split at h
            · split at h
              · simp at h
              · exact frameEq_trans
                  (frameEq_trans (frameEq_bump st id) (frameEq_setVal (bump st id) id _))
                  (ih _ _ _ h)
            · simp at h
        · exact frameEq_trans (frameEq_bump st id) (ih _ _ _ h)

theorem shortLoop_frame_cont (key : String) :
    ∀ (chars : List Char) (st : EloArgState) (rest : List String) (st1 : EloArgState)
      (rest1 : List String),
      shortLoop key st chars rest = .cont st1 rest1 → FrameEq st st1 := by
  intro chars
  induction chars with
  | nil =>
    intro st rest st1 rest1 h
    rw [shortLoop] at h
    simp only [ShortOut.cont.injEq] at h
    rw [← h.1]
    exact frameEq_refl st
  | cons c cs ih =>
    intro st rest st1 rest1 h
    rw [shortLoop] at h
    split at h
    · simp at h
    · rename_i id _
      split at h
      · simp at h
      · split at h
        · split at h
          · simp only [ShortOut.cont.injEq] at h
            rw [← h.1]
            exact frameEq_trans (frameEq_bump st id) (frameEq_setVal (bump st id) id _)
          · split at h
            · split at h
              · simp at h
              · exact frameEq_trans
                  (frameEq_trans (frameEq_bump st id) (frameEq_setVal (bump st id) id _))
                  (ih _ _ _ _ h)
            · simp at h
        · exact frameEq_trans (frameEq_bump st id) (ih _ _ _ _ h)

theorem shortLoop_rest_le (key : String) :
    ∀ (chars : List Char) (st : EloArgState) (rest : List String) (st1 : EloArgState)
      (rest1 : List String),
      shortLoop key st chars rest = .cont st1 rest1 → rest1.length ≤ rest.length := by
  intro chars
  induction chars with
  | nil =>
    intro st rest st1 rest1 h
    rw [shortLoop] at h
    simp only [ShortOut.cont.injEq] at h
    rw [← h.2]
  | cons c cs ih =>
    intro st rest st1 rest1 h
    rw [shortLoop] at h
    split at h
    · simp at h
    · split at h
      · simp at h
      · split at h
        · split at h
          · simp only [ShortOut.cont.injEq] at h
            rw [← h.2]
          · split at h
            · split at h
              · simp at h
              · rename_i v rest2 _ _
                exact le_trans (ih _ _ _ _ h) (by simp)
            · simp at h
        · exact ih _ _ _ _ h

theorem parseLoopF_frame :
    ∀ (fuel : Nat) (args : List String) (st st1 : EloArgState),
      (parseLoopF fuel args st = .done st1 ∨ parseLoopF fuel args st = .early st1) →
      FrameEq st st1 := by
  intro fuel
  induction fuel with
  | zero =>
    intro args st st1 h
    rcases h with h | h
    · rw [parseLoopF] at h
      simp only [ParseOutcome.done.injEq] at h
      subst h
      exact frameEq_refl st
    · rw [parseLoopF] at h
      simp at h
  | succ f ihf =>
    intro args st st1 h
    cases args with
    | nil =>
      rcases h with h | h
      · rw [parseLoopF] at h
        simp only [ParseOutcome.done.injEq] at h
        subst h
        exact frameEq_refl st
      · rw [parseLoopF] at h
        simp at h
    | cons a rest =>
      by_cases ha : a = "--"
      · rw [parseLoopF, if_pos ha] at h
        rcases h with h | h
        · simp at h
        · simp only [ParseOutcome.early.injEq] at h
          subst h
          exact frameEq_refl st
      · rw [parseLoopF, if_neg ha] at h
        cases hcl : classify a.data with
        | ddash nv =>
          simp only [hcl] at h
          cases hls : longStep st nv rest.head? with
          | err e =>
            simp only [hls] at h
            simp at h
          | early st2 =>
            simp only [hls] at h
            rcases h with h | h
            · simp at h
            · simp only [ParseOutcome.early.injEq] at h
              subst h
              exact longStep_frame_early st nv rest.head? st2 hls
          | cont st2 b =>
            simp only [hls] at h
            cases b
            · exact frameEq_trans (longStep_frame_cont st nv rest.head? st2 false hls)
                (ihf rest st2 st1 h)
            · exact frameEq_trans (longStep_frame_cont st nv rest.head? st2 true hls)
                (ihf rest.tail st2 st1 h)
        | dashOnly =>
          simp only [hcl] at h
          exact ihf rest st st1 h
        | short c cs =>
          simp only [hcl] at h
          cases hsl : shortLoop (String.singleton c) st (c :: cs) rest with
          | err e =>
            simp only [hsl] at h
            simp at h
          | early st2 =>
            simp only [hsl] at h
            rcases h with h | h
            · simp at h
            · simp only [ParseOutcome.early.injEq] at h
              subst h
              exact shortLoop_frame_early (String.singleton c) (c :: cs) st rest st2 hsl
          | cont st2 rest1 =>
            simp only [hsl] at h
            exact frameEq_trans
              (shortLoop_frame_cont (String.singleton c) (c :: cs) st rest st2 rest1 hsl)
              (ihf rest1 st2 st1 h)
        | bare =>
          simp only [hcl] at h
          exact ihf rest st st1 h

theorem requiredCheck_ok {st st1 : EloArgState} (h : requiredCheck st = .ok st1) : st1 = st := by
  rw [requiredCheck] at h
  split at h
  · simp at h
  · simp only [Except.ok.injEq] at h
    exact h.symm

/-- A successful `parse` only performs parse-time mutations: the key
index and all record spellings survive unchanged. -/
theorem eloArgParse_frame {st st1 : EloArgState} {args : List String}
    (h : eloArgParse st args = .ok st1) : FrameEq st st1 := by
  rw [eloArgParse] at h
  split at h
  · simp only [Except.ok.injEq] at h
    subst h
    exact frameEq_refl st
  · split at h
    · rename_i st2 hrun
      rw [← requiredCheck_ok h] at hrun
      exact parseLoopF_frame args.tail.length args.tail st st1 (Or.inl hrun)
    · rename_i st2 hrun
      simp only [Except.ok.injEq] at h
      subst h
      exact parseLoopF_frame args.tail.length args.tail st st2 (Or.inr hrun)
    · simp at h

/-! ## The dual-key sharing invariant -/

theorem inv_init : RegInv initState := by
  intro i o h
  simp [initState] at h

theorem inv_frameEq {st st1 : EloArgState} (hinv : RegInv st) (hf : FrameEq st st1) :
    RegInv st1 := by
  intro i o h
  have hmap := hf.2 i
  rw [h] at hmap
  cases hg : st.store.get? i with
  | none =>
    rw [hg] at hmap
    simp at hmap
  | some o2 =>
    rw [hg] at hmap
    simp only [Option.map_some', Option.some.injEq] at hmap
    have hs : o.shortOption = o2.shortOption := congrArg Prod.fst hmap
    have hl : o.longOption = o2.longOption := congrArg Prod.snd hmap
    obtain ⟨h1, h2⟩ := hinv i o2 hg
    constructor
    · intro hne
      show List.lookup o.shortOption st1.table = some i
      rw [hf.1, hs]
      exact h1 (hs ▸ hne)
    · intro hne
      show List.lookup o.longOption st1.table = some i
      rw [hf.1, hl]
      exact h2 (hl ▸ hne)

theorem lookup_none_of_not_hasKeyOpt {st : EloArgState} {s : String}
    (h : ¬ hasKeyOpt st (some s) = true) : List.lookup s st.table = none := by
  rw [hasKeyOpt, tableHas, tableGet] at h
  cases hlk : List.lookup s st.table with
  | some x => rw [hlk] at h; simp at h
  | none => rfl

theorem inv_add {st st1 : EloArgState} {so lo d : Option String} {k : ArgValueType}
    (hadd : eloArgAdd st so lo d k = .ok st1) (hinv : RegInv st) : RegInv st1 := by
  rw [eloArgAdd] at hadd
  split at hadd
  · simp at hadd
  split at hadd
  · simp at hadd
  split at hadd
  · simp at hadd
  split at hadd
  · simp at hadd
  split at hadd
  · simp at hadd
  split at hadd
  · simp at hadd
  split at hadd
  · simp at hadd
  rename_i hnn hdesc hdupS hdupL hlenS hlenL hlenD
  simp only [Except.ok.injEq] at hadd
  subst hadd
  cases so with
  | none =>
    cases lo with
    | none => exact absurd ⟨rfl, rfl⟩ hnn
    | some s2 =>
      have hs2n : List.lookup s2 st.table = none := lookup_none_of_not_hasKeyOpt hdupL
      intro i o hget
      by_cases hi : i < st.store.length
      · rw [List.get?_append hi] at hget
        obtain ⟨hS, hL⟩ := hinv i o hget
        constructor
        · intro hne
          have hlk := hS hne
          rw [tableGet] at hlk
          have hne2 : o.shortOption ≠ s2 := fun he => by
            rw [he, hs2n] at hlk
            exact Option.noConfusion hlk
          show List.lookup o.shortOption (tableSet st.table s2 st.store.length) = some i
          rw [lookup_tableSet_ne _ _ _ _ hne2]
          exact hlk
        · intro hne
          have hlk := hL hne
          rw [tableGet] at hlk
          have hne2 : o.longOption ≠ s2 := fun he => by
            rw [he, hs2n] at hlk
            exact Option.noConfusion hlk
          show List.lookup o.longOption (tableSet st.table s2 st.store.length) = some i
          rw [lookup_tableSet_ne _ _ _ _ hne2]
          exact hlk
      · push_neg at hi
        rw [List.get?_append_right hi] at hget
        have hi0 : i - st.store.length = 0 := by
          cases hsub : i - st.store.length with
          | zero => rfl
          | succ m => rw [hsub] at hget; simp at hget
        have hieq : i = st.store.length := by omega
        rw [hi0] at hget
        simp only [List.get?_cons_zero, Option.some.injEq] at hget
        subst hget
        constructor
        · intro hne
          simp at hne
        · intro hne
          show List.lookup s2 (tableSet st.table s2 st.store.length) = some i
          rw [lookup_tableSet_same, hieq]
  | some s =>
    have hsn : List.lookup s st.table = none := lookup_none_of_not_hasKeyOpt hdupS
    cases lo with
    | none =>
      intro i o hget
      by_cases hi : i < st.store.length
      · rw [List.get?_append hi] at hget
        obtain ⟨hS, hL⟩ := hinv i o hget
        constructor
        · intro hne
          have hlk := hS hne
          rw [tableGet] at hlk
          have hne1 : o.shortOption ≠ s := fun he => by
            rw [he, hsn] at hlk
            exact Option.noConfusion hlk
          show List.lookup o.shortOption (tableSet st.table s st.store.length) = some i
          rw [lookup_tableSet_ne _ _ _ _ hne1]
          exact hlk
        · intro hne
          have hlk := hL hne
          rw [tableGet] at hlk
          have hne1 : o.longOption ≠ s := fun he => by
            rw [he, hsn] at hlk
            exact Option.noConfusion hlk
          show List.lookup o.longOption (tableSet st.table s st.store.length) = some i
          rw [lookup_tableSet_ne _ _ _ _ hne1]
          exact hlk
      · push_neg at hi
        rw [List.get?_append_right hi] at hget
        have hi0 : i - st.store.length = 0 := by
          cases hsub : i - st.store.length with
          | zero => rfl
          | succ m => rw [hsub] at hget; simp at hget
        have hieq : i = st.store.length := by omega
        rw [hi0] at hget
        simp only [List.get?_cons_zero, Option.some.injEq] at hget
        subst hget
        constructor
        · intro hne
          show List.lookup s (tableSet st.table s st.store.length) = some i
          rw [lookup_tableSet_same, hieq]
        · intro hne
          simp at hne
    | some s2 =>
      have hs2n : List.lookup s2 st.table = none := lookup_none_of_not_hasKeyOpt hdupL
      intro i o hget
      by_cases hi : i < st.store.length
      · rw [List.get?_append hi] at hget
        obtain ⟨hS, hL⟩ := hinv i o hget
        constructor
        · intro hne
          have hlk := hS hne
          rw [tableGet] at hlk
          have hne1 : o.shortOption ≠ s := fun he => by
            rw [he, hsn] at hlk
            exact Option.noConfusion hlk
          have hne2 : o.shortOption ≠ s2 := fun he => by
            rw [he, hs2n] at hlk
            exact Option.noConfusion hlk
          show List.lookup o.shortOption
              (tableSet (tableSet st.table s st.store.length) s2 st.store.length) = some i
          rw [lookup_tableSet_ne _ _ _ _ hne2, lookup_tableSet_ne _ _ _ _ hne1]
          exact hlk
        · intro hne
          have hlk := hL hne
          rw [tableGet] at hlk
          have hne1 : o.longOption ≠ s := fun he => by
            rw [he, hsn] at hlk
            exact Option.noConfusion hlk
          have hne2 : o.longOption ≠ s2 := fun he => by
            rw [he, hs2n] at hlk
            exact Option.noConfusion hlk
          show List.lookup o.longOption
              (tableSet (tableSet st.table s st.store.length) s2 st.store.length) = some i
          rw [lookup_tableSet_ne _ _ _ _ hne2, lookup_tableSet_ne _ _ _ _ hne1]
          exact hlk
      · push_neg at hi
        rw [List.get?_append_right hi] at hget
        have hi0 : i - st.store.length = 0 := by
          cases hsub : i - st.store.length with
          | zero => rfl
          | succ m => rw [hsub] at hget; simp at hget
        have hieq : i = st.store.length := by omega
        rw [hi0] at hget
        simp only [List.get?_cons_zero, Option.some.injEq] at hget
        subst hget
        constructor
        · intro hne
          show List.lookup s
              (tableSet (tableSet st.table s st.store.length) s2 st.store.length) = some i
          by_cases hss : s2 = s
          · rw [hss, lookup_tableSet_same, hieq]
          · rw [lookup_tableSet_ne _ _ _ _ (fun he => hss he.symm),
              lookup_tableSet_same, hieq]
        · intro hne
          show List.lookup s2
              (tableSet (tableSet st.table s st.store.length) s2 st.store.length) = some i
          rw [lookup_tableSet_same, hieq]

theorem inv_reachable {st : EloArgState} (h : Reachable st) : RegInv st := by
  induction h with
  | init => exact inv_init
  | add st st1 so lo d k _ hadd ih => exact inv_add hadd ih
  | parse st st1 args _ hparse ih => exact inv_frameEq ih (eloArgParse_frame hparse)

/-! ## Claim C6: dual-key aliasing -/

/-- C6: in every state reachable through register/parse, an option stored
with both a short and a long spelling is one shared record: both keys
resolve to the same record id in the index, and `has`, `get` and
`getCount` return identical results through either spelling — so any
parse-time mutation (value, provided, count) performed through one key is
visible through the other. -/
theorem dual_key_aliasing_invariant :
    ∀ (st : EloArgState), Reachable st →
    ∀ (i : Nat) (o : EloArgOption), st.store.get? i = some o →
      o.shortOption ≠ "" → o.longOption ≠ "" →
      ( tableGet st o.shortOption = some i
      ∧ tableGet st o.longOption = some i
      ∧ eloArgHas st o.shortOption = eloArgHas st o.longOption
      ∧ eloArgGet st o.shortOption = eloArgGet st o.longOption
      ∧ eloArgCount st o.shortOption = eloArgCount st o.longOption ) := by
  intro st hr i o hget hs hl
  obtain ⟨h1, h2⟩ := inv_reachable hr i o hget
  have hgs := h1 hs
  have hgl := h2 hl
  refine ⟨hgs, hgl, ?_, ?_, ?_⟩
  · rw [eloArgHas, eloArgHas, hgs, hgl]
  · rw [eloArgGet, eloArgGet, hgs, hgl]
  · rw [eloArgCount, eloArgCount, hgs, hgl]

/-- Witness for C6 at a registry built by `init`, `add` and `parse`. -/
theorem dual_key_aliasing_invariant_witness :
    eloArgParse stPort ["prog", "-p8080"] = .ok stPortParsed
  ∧ stPortParsed.store.get? 0
      = some ⟨"p", "port", "Port to listen on", .ARG_REQUIRED, "0", some "8080", true, 1, 2⟩
  ∧ tableGet stPortParsed "p" = some 0
  ∧ tableGet stPortParsed "port" = some 0
  ∧ eloArgHas stPortParsed "p" = eloArgHas stPortParsed "port"
  ∧ eloArgGet stPortParsed "p" = eloArgGet stPortParsed "port"
  ∧ eloArgCount stPortParsed "p" = eloArgCount stPortParsed "port" :=
  ⟨by decide, by decide,
   dual_key_aliasing_invariant stPortParsed
     (Reachable.parse stPort stPortParsed ["prog", "-p8080"]
       (Reachable.add initState stPort (some "p") (some "port")
         (some "Port to listen on") .ARG_REQUIRED Reachable.init (by decide))
       (by decide))
     0
     ⟨"p", "port", "Port to listen on", .ARG_REQUIRED, "0", some "8080", true, 1, 2⟩
     (by decide) (by decide) (by decide)⟩

/-! ## Fuel irrelevance: any fuel at least the list length acts alike -/

theorem parseLoopF_fuel_succ :
    ∀ (f : Nat) (args : List String) (st : EloArgState),
      args.length ≤ f → parseLoopF (f + 1) args st = parseLoopF f args st := by
  intro f
  induction f using Nat.strong_induction_on with
  | _ f IH =>
    intro args st hlen
    cases args with
    | nil =>
      cases f with
      | zero => rfl
      | succ f1 => rfl
    | cons a rest =>
      have hf : rest.length + 1 ≤ f := by simpa using hlen
      obtain ⟨f1, rfl⟩ : ∃ f1, f = f1 + 1 := ⟨f - 1, by omega⟩
      rw [parseLoopF, parseLoopF]
      by_cases ha : a = "--"
      · rw [if_pos ha, if_pos ha]
      · rw [if_neg ha, if_neg ha]
        cases hcl : classify a.data with
        | ddash nv =>
          simp only [hcl]
          cases hls : longStep st nv rest.head? with
          | err e => rfl
          | early st2 => rfl
          | cont st2 b =>
            cases b
            · exact IH f1 (by omega) rest st2 (by omega)
            · have htail : rest.tail.length ≤ rest.length := by
                cases rest <;> simp
              exact IH f1 (by omega) rest.tail st2 (by omega)
        | dashOnly =>
          simp only [hcl]
          exact IH f1 (by omega) rest st (by omega)
        | short c cs =>
          simp only [hcl]
          cases hsl : shortLoop (String.singleton c) st (c :: cs) rest with
          | err e => rfl
          | early st2 => rfl
          | cont st2 rest1 =>
            have hle := shortLoop_rest_le (String.singleton c) (c :: cs) st rest st2 rest1 hsl
            exact IH f1 (by omega) rest1 st2 (by omega)
        | bare =>
          simp only [hcl]
          exact IH f1 (by omega) rest st (by omega)

theorem parseLoopF_eq_runArgs :
    ∀ (f : Nat) (args : List String) (st : EloArgState),
      args.length ≤ f → parseLoopF f args st = runArgs args st := by
  intro f args st h
  obtain ⟨k, rfl⟩ : ∃ k, f = args.length + k := ⟨f - args.length, by omega⟩
  clear h
  induction k with
  | zero => rfl
  | succ n ih =>
    have h1 : parseLoopF (args.length + n + 1) args st = parseLoopF (args.length + n) args st :=
      parseLoopF_fuel_succ (args.length + n) args st (by omega)
    exact h1.trans ih

/-! ## Claim C9: repeated occurrences of one option -/

theorem data_ne_nil_of_ne_empty {v : String} (hv : v ≠ "") : v.data ≠ [] := by
  intro h
  apply hv
  cases v with
  | mk d =>
    simp at h
    rw [h]

theorem runArgs_shortAtt (k : ArgValueType)
    (hk : k = ArgValueType.ARG_OPTIONAL ∨ k = ArgValueType.ARG_REQUIRED)
    (v : String) (rest : List String) (v0 : Option String) (c0 : Nat)
    (p0 : Bool) (hv : v ≠ "") :
    runArgs (renderOcc (.shortAtt v) ++ rest) (stFileK k v0 c0 p0)
      = runArgs rest (stFileK k (some v) (c0 + 1) true) := by
  have hkinfo : ¬ (k = ArgValueType.ARG_INFO) := by
    rcases hk with h | h <;> rw [h] <;> simp
  show parseLoopF (rest.length + 1) (String.mk ('-' :: 'f' :: v.data) :: rest)
      (stFileK k v0 c0 p0) = _
  rw [parseLoopF_cons_short rest.length _ rest 'f' v.data (by decide)]
  have hlook : tableGet (stFileK k v0 c0 p0) (String.singleton 'f') = some 0 := rfl
  have hget0 : storeGetD (stFileK k v0 c0 p0) 0 = fileOptK k v0 c0 p0 := rfl
  have hvt : (fileOptK k v0 c0 p0).valueType = k := rfl
  have hstate : setVal (bump (stFileK k v0 c0 p0) 0) 0 (String.mk v.data)
      = stFileK k (some v) (c0 + 1) true := rfl
  have hsl : shortLoop (String.singleton 'f') (stFileK k v0 c0 p0) ('f' :: v.data) rest
      = .cont (stFileK k (some v) (c0 + 1) true) rest := by
    rw [shortLoop]
    simp only [hlook, hget0, hvt]
    rw [if_neg hkinfo, if_pos hk, if_pos (data_ne_nil_of_ne_empty hv), hstate]
  rw [hsl]
  rfl

theorem runArgs_shortSp (k : ArgValueType)
    (hk : k = ArgValueType.ARG_OPTIONAL ∨ k = ArgValueType.ARG_REQUIRED)
    (v : String) (rest : List String) (v0 : Option String) (c0 : Nat)
    (p0 : Bool) (hv : headIsDash v = false) :
    runArgs (renderOcc (.shortSp v) ++ rest) (stFileK k v0 c0 p0)
      = runArgs rest (stFileK k (some v) (c0 + 1) true) := by
  have hkinfo : ¬ (k = ArgValueType.ARG_INFO) := by
    rcases hk with h | h <;> rw [h] <;> simp
  show parseLoopF (rest.length + 1 + 1) (String.mk ('-' :: 'f' :: []) :: v :: rest)
      (stFileK k v0 c0 p0) = _
  rw [parseLoopF_cons_short (rest.length + 1) _ (v :: rest) 'f' [] (by decide)]
  have hlook : tableGet (stFileK k v0 c0 p0) (String.singleton 'f') = some 0 := rfl
  have hget0 : storeGetD (stFileK k v0 c0 p0) 0 = fileOptK k v0 c0 p0 := rfl
  have hvt : (fileOptK k v0 c0 p0).valueType = k := rfl
  have hstate : setVal (bump (stFileK k v0 c0 p0) 0) 0 v
      = stFileK k (some v) (c0 + 1) true := rfl
  have hsl : shortLoop (String.singleton 'f') (stFileK k v0 c0 p0) ['f'] (v :: rest)
      = .cont (stFileK k (some v) (c0 + 1) true) rest := by
    rw [shortLoop]
    simp only [hlook, hget0, hvt]
    rw [if_neg hkinfo, if_pos hk, if_neg (by simp : ¬(([] : List Char) ≠ []))]
    simp [hv, hstate, shortLoop]
  rw [hsl]
  exact parseLoopF_eq_runArgs (rest.length + 1) rest _ (by omega)

theorem runArgs_longEq (k : ArgValueType)
    (hk : k = ArgValueType.ARG_OPTIONAL ∨ k = ArgValueType.ARG_REQUIRED)
    (v : String) (rest : List String) (v0 : Option String) (c0 : Nat)
    (p0 : Bool) (hv : v ≠ "") :
    runArgs (renderOcc (.longEq v) ++ rest) (stFileK k v0 c0 p0)
      = runArgs rest (stFileK k (some v) (c0 + 1) true) := by
  show parseLoopF (rest.length + 1)
      (String.mk ('-' :: '-' :: 'f' :: 'i' :: 'l' :: 'e' :: '=' :: v.data) :: rest)
      (stFileK k v0 c0 p0) = _
  rw [parseLoopF_cons_long rest.length _ rest _ (by simp)]
  have hcont : ('f' :: 'i' :: 'l' :: 'e' :: '=' :: v.data).contains '=' = true :=
    List.elem_iff.mpr (by simp)
  have htake : List.takeWhile (fun c => decide (c ≠ '='))
      ('f' :: 'i' :: 'l' :: 'e' :: '=' :: v.data) = ['f', 'i', 'l', 'e'] := by
    simp [List.takeWhile_cons]
  have hdrop : List.dropWhile (fun c => decide (c ≠ '='))
      ('f' :: 'i' :: 'l' :: 'e' :: '=' :: v.data) = '=' :: v.data := by
    simp [List.dropWhile_cons]
  have hlook : tableGet (stFileK k v0 c0 p0) (String.mk ['f', 'i', 'l', 'e']) = some 0 := rfl
  have hget0 : storeGetD (stFileK k v0 c0 p0) 0 = fileOptK k v0 c0 p0 := rfl
  have hvt : (fileOptK k v0 c0 p0).valueType = k := rfl
  have hvne : ¬ (String.mk v.data = "") := by
    intro h
    exact data_ne_nil_of_ne_empty hv ((stringMk_eq_empty_iff v.data).mp h)
  have hstate : setVal (bump (stFileK k v0 c0 p0) 0) 0 (String.mk v.data)
      = stFileK k (some v) (c0 + 1) true := rfl
  have hls : longStep (stFileK k v0 c0 p0) ('f' :: 'i' :: 'l' :: 'e' :: '=' :: v.data)
      (rest.head?) = .cont (stFileK k (some v) (c0 + 1) true) false := by
    rw [longStep, if_pos hcont, htake, hdrop]
    simp only [hlook, hget0, hvt, List.tail_cons]
    rw [if_pos hk, if_neg hvne, hstate]
  rw [hls]
  rfl

theorem runArgs_longSp (k : ArgValueType)
    (hk : k = ArgValueType.ARG_OPTIONAL ∨ k = ArgValueType.ARG_REQUIRED)
    (v : String) (rest : List String) (v0 : Option String) (c0 : Nat)
    (p0 : Bool) (hv : headIsDash v = false) :
    runArgs (renderOcc (.longSp v) ++ rest) (stFileK k v0 c0 p0)
      = runArgs rest (stFileK k (some v) (c0 + 1) true) := by
  have hkinfo : ¬ (k = ArgValueType.ARG_INFO) := by
    rcases hk with h | h <;> rw [h] <;> simp
  show parseLoopF (rest.length + 1 + 1)
      (String.mk ('-' :: '-' :: ['f', 'i', 'l', 'e']) :: v :: rest) (stFileK k v0 c0 p0) = _
  rw [parseLoopF_cons_long (rest.length + 1) _ (v :: rest) _ (by simp)]
  have hlook : tableGet (stFileK k v0 c0 p0) (String.mk ['f', 'i', 'l', 'e']) = some 0 := rfl
  have hget0 : storeGetD (stFileK k v0 c0 p0) 0 = fileOptK k v0 c0 p0 := rfl
  have hvt : (fileOptK k v0 c0 p0).valueType = k := rfl
  have hstate : setVal (bump (stFileK k v0 c0 p0) 0) 0 v
      = stFileK k (some v) (c0 + 1) true := rfl
  have hls : longStep (stFileK k v0 c0 p0) ['f', 'i', 'l', 'e'] ((v :: rest).head?)
      = .cont (stFileK k (some v) (c0 + 1) true) true := by
    rw [longStep, if_neg (by decide)]
    simp only [hlook, hget0, hvt]
    rw [if_neg hkinfo, if_pos hk]
    simp [hv, hstate]
  rw [hls]
  exact parseLoopF_eq_runArgs (rest.length + 1) rest _ (by omega)

theorem runArgs_occ (k : ArgValueType)
    (hk : k = ArgValueType.ARG_OPTIONAL ∨ k = ArgValueType.ARG_REQUIRED)
    (b : OccForm) (rest : List String) (v0 : Option String) (c0 : Nat)
    (p0 : Bool) (hb : occOk b = true) :
    runArgs (renderOcc b ++ rest) (stFileK k v0 c0 p0)
      = runArgs rest (stFileK k (some (occVal b)) (c0 + 1) true) := by
  cases b with
  | longEq v => exact runArgs_longEq k hk v rest v0 c0 p0 (by simpa [occOk] using hb)
  | longSp v => exact runArgs_longSp k hk v rest v0 c0 p0 (by simpa [occOk] using hb)
  | shortAtt v => exact runArgs_shortAtt k hk v rest v0 c0 p0 (by simpa [occOk] using hb)
  | shortSp v => exact runArgs_shortSp k hk v rest v0 c0 p0 (by simpa [occOk] using hb)

theorem runArgs_occs (k : ArgValueType)
    (hk : k = ArgValueType.ARG_OPTIONAL ∨ k = ArgValueType.ARG_REQUIRED) :
    ∀ (bs : List OccForm) (v0 : Option String) (c0 : Nat),
      (∀ b ∈ bs, occOk b = true) →
      runArgs (renderAll bs) (stFileK k v0 c0 true)
        = .done (stFileK k (lastValD bs v0) (c0 + bs.length) true) := by
  intro bs
  induction bs with
  | nil =>
    intro v0 c0 _
    rfl
  | cons b bs ih =>
    intro v0 c0 hok
    show runArgs (renderOcc b ++ renderAll bs) (stFileK k v0 c0 true) = _
    rw [runArgs_occ k hk b _ v0 c0 true (hok b (by simp))]
    rw [ih (some (occVal b)) (c0 + 1) (fun b2 hb2 => hok b2 (by simp [hb2]))]
    have hc : c0 + 1 + bs.length = c0 + (bs.length + 1) := by omega
    rw [hc]
    rfl

theorem lastValD_some :
    ∀ (bs : List OccForm) (v : String), ∃ w, lastValD bs (some v) = some w := by
  intro bs
  induction bs with
  | nil =>
    intro v
    exact ⟨v, rfl⟩
  | cons b bs ih =>
    intro v
    exact ih (occVal b)

theorem firstMissingRequired_stFileK (k : ArgValueType) (w : String) (c : Nat) (p : Bool) :
    firstMissingRequired (stFileK k (some w) c p) = none := by
  have h0 : ∀ key : String, isReqMissing (stFileK k (some w) c p) (key, 0) = false := by
    intro key
    simp [isReqMissing, storeGetD, stFileK, fileOptK]
  rw [firstMissingRequired]
  show (List.find? (isReqMissing (stFileK k (some w) c p)) [("f", 0), ("file", 0)]).map _ = none
  rw [List.find?, h0, List.find?, h0, List.find?]
  rfl

/-- C9: when an `OPTIONAL` or `REQUIRED` option occurs several times in
one argument vector — in any mix of `--file=v`, `--file v`, `-fv` and
`-f v` forms — each occurrence marks the option provided and increments
its count, and `get` afterwards returns the value of the last
occurrence. -/
theorem repeated_option_last_value_wins :
    ∀ (k : ArgValueType) (bs : List OccForm),
      (k = ArgValueType.ARG_OPTIONAL ∨ k = ArgValueType.ARG_REQUIRED) →
      (∀ b ∈ bs, occOk b = true) → bs ≠ [] →
      ( eloArgParse (stFileOf k) ("prog" :: renderAll bs)
          = .ok (stFileK k (lastValD bs none) bs.length true)
      ∧ eloArgGet (stFileK k (lastValD bs none) bs.length true) "file" = lastValD bs none
      ∧ eloArgGet (stFileK k (lastValD bs none) bs.length true) "f" = lastValD bs none
      ∧ eloArgCount (stFileK k (lastValD bs none) bs.length true) "f" = bs.length
      ∧ eloArgHas (stFileK k (lastValD bs none) bs.length true) "file" = true ) := by
  intro k bs hk hok hne
  refine ⟨?_, rfl, rfl, rfl, rfl⟩
  have hstf : stFileOf k = stFileK k none 0 false := rfl
  have htc : tableCount (stFileOf k) = 2 := rfl
  rw [eloArgParse, if_neg ?hcond]
  case hcond =>
    rw [not_or]
    refine ⟨by simp, ?_⟩
    rw [htc]
    simp
  cases bs with
  | nil => exact absurd rfl hne
  | cons b bs1 =>
    have h1 : runArgs (renderAll (b :: bs1)) (stFileOf k)
        = runArgs (renderAll bs1) (stFileK k (some (occVal b)) 1 true) := by
      rw [hstf]
      exact runArgs_occ k hk b (renderAll bs1) none 0 false (hok b (by simp))
    have h2 := runArgs_occs k hk bs1 (some (occVal b)) 1 (fun b2 hb2 => hok b2 (by simp [hb2]))
    simp only [List.tail_cons, h1, h2]
    have hc : 1 + bs1.length = bs1.length + 1 := by omega
    rw [hc]
    have hlv : lastValD (b :: bs1) none = lastValD bs1 (some (occVal b)) := rfl
    rw [hlv]
    obtain ⟨w, hw⟩ := lastValD_some bs1 (occVal b)
    rw [hw]
    rw [requiredCheck, firstMissingRequired_stFileK k w (bs1.length + 1) true]
    rfl

/-- Witness for C9: a `REQUIRED`-kind `file` option with four
occurrences, one of each syntactic form. -/
theorem repeated_option_last_value_wins_witness :
    (ArgValueType.ARG_REQUIRED = ArgValueType.ARG_OPTIONAL
      ∨ ArgValueType.ARG_REQUIRED = ArgValueType.ARG_REQUIRED)
  ∧ (∀ b ∈ ([OccForm.longEq "a", .shortAtt "b", .longSp "c", .shortSp "d"] : List OccForm),
        occOk b = true)
  ∧ ([OccForm.longEq "a", .shortAtt "b", .longSp "c", .shortSp "d"] : List OccForm) ≠ []
  ∧ eloArgParse (stFileOf .ARG_REQUIRED)
      ("prog" :: renderAll [OccForm.longEq "a", .shortAtt "b", .longSp "c", .shortSp "d"])
      = .ok (stFileK .ARG_REQUIRED (some "d") 4 true) :=
  ⟨Or.inr rfl, by decide, by decide,
   (repeated_option_last_value_wins .ARG_REQUIRED
     [OccForm.longEq "a", .shortAtt "b", .longSp "c", .shortSp "d"]
     (Or.inr rfl) (by decide) (by decide)).1⟩
